import Mathlib

/-
Verification of the allocation engine of the dutySchedule repository.

The Python core lives in src/app/scheduler.py (class Scheduler) and
src/main.py (createAllocations).  The shallow embedding below models:
  - Python dictionaries as association lists with unique keys, in
    insertion order (lookup finds the first matching key; inserting an
    existing key updates it in place, a new key is appended);
  - float weights as rationals;
  - raised exceptions as error results, paired with the state the
    object had at the moment of the raise where a claim needs it.
-/

namespace DutySchedule

/-- A bid key: (employee, duty, shift). -/
abbrev BidKey := String × String × String

/-- A decision-variable index: (employee, duty, shift, rotation week). -/
abbrev DVar := String × String × String × String

/-- Lookup in a Python-style dictionary modelled as an association list:
the value of the first entry whose key matches. -/
def dlookup {α β : Type} [DecidableEq α] (m : List (α × β)) (k : α) : Option β :=
  (m.find? (fun kv => kv.1 = k)).map (fun kv => kv.2)

/-- Python dictionary assignment d[k] = v: update the entry in place when the
key is present, otherwise append a new entry at the end. -/
def pyInsert {α β : Type} [DecidableEq α] (m : List (α × β)) (k : α) (v : β) :
    List (α × β) :=
  if m.any (fun kv => kv.1 = k) then
    m.map (fun kv => if kv.1 = k then (k, v) else kv)
  else m ++ [(k, v)]

/-- Python dict.fromkeys-style deduplication: keep the first occurrence of
each element, in order.  Used to model dictionaries keyed by the employee
list (scheduler.py lines 139-142). -/
def pyDedup {α : Type} [DecidableEq α] (l : List α) : List α :=
  l.foldl (fun acc a => if a ∈ acc then acc else acc ++ [a]) []

/-- The errors raised by Scheduler.completeBids, modelled structurally:
the invalid-key ValueError of line 136 carries the offending triple, the
aggregated ValueError of line 169 carries the report dictionary built on
lines 157-166 (a list of labelled employee lists, in insertion order). -/
inductive VErr where
  | invalidKey (employee duty shift : String)
  | incorrectBids (report : List (String × List String))
deriving DecidableEq, Repr

/-- A linear-constraint sense, pulp.LpConstraintEQ / pulp.LpConstraintLE. -/
inductive CSense where
  | eq
  | le
deriving DecidableEq, Repr

/-- One pulp.LpConstraint as built by Scheduler.setUpProblem: a list of
decision variables each with coefficient 1, a sense and a right-hand side. -/
structure LinCon where
  terms : List DVar
  sense : CSense
  rhs : ℚ
deriving DecidableEq, Repr

/-- The optimization sense of a pulp.LpProblem: pulp.LpMaximize or
pulp.LpMinimize. -/
inductive OptSense where
  | maximize
  | minimize
deriving DecidableEq, Repr

/-- The category of a pulp.LpVariable: the cat argument of
LpVariable.dicts. -/
inductive VarCat where
  | binary
  | integer
  | continuous
deriving DecidableEq, Repr

/-- The pulp.LpProblem built by Scheduler.setUpProblem: the optimization
sense of line 205, the category all decision variables are declared with
on line 202, the decision-variable universe in construction order, the
objective terms (bid weight times variable) and the emitted constraints in
emission order. -/
structure PModel where
  sense : OptSense
  cat : VarCat
  vars : List DVar
  objective : List (ℚ × DVar)
  constraints : List LinCon
deriving DecidableEq, Repr

/-- A key of the Scheduler.allocations dictionary.  Scheduler.solveProblem
stores pulp variable-name strings (line 266); Scheduler.cleanAllocations
replaces them with (Employee, Duty, Shift, Week) tuples (line 122). -/
inductive PyKey where
  | str (s : String)
  | tup (t : String × String × String × String)
deriving DecidableEq, Repr

/-- The mutable state of a Scheduler object (scheduler.py lines 53-67). -/
structure SchedState where
  employees : List String
  duties : List String
  shifts : List String
  rotations : List String
  bids : List (BidKey × ℚ)
  prob : Option PModel
  allocations : List (PyKey × ℚ)
deriving DecidableEq, Repr

/-! ### Scheduler.completeBids (scheduler.py lines 126-175) -/

/-- The first bid key whose employee, duty or shift is not in the
corresponding master list (the loop of lines 134-136 raises at the first
such key, iterating the dictionary in insertion order). -/
def firstInvalidKey (s : SchedState) : Option BidKey :=
  ((s.bids.map (fun kv => kv.1)).find? (fun k =>
    !(s.employees.contains k.1 && s.duties.contains k.2.1 &&
      s.shifts.contains k.2.2)))

/-- Number of bids an employee has provided (lines 139, 143-144). -/
def bidCount (bids : List (BidKey × ℚ)) (e : String) : Nat :=
  (bids.map (fun kv => kv.1)).countP (fun k => k.1 = e)

/-- Number of bids an employee has provided for a given shift
(lines 140-142, 145-150). -/
def shiftBidCount (bids : List (BidKey × ℚ)) (e sh : String) : Nat :=
  (bids.map (fun kv => kv.1)).countP (fun k => k.1 = e && k.2.2 = sh)

/-- The employees with fewer than three bids, in the iteration order of the
bid_counts dictionary (line 153). -/
def notEnoughBids (s : SchedState) : List String :=
  (pyDedup s.employees).filter (fun e => bidCount s.bids e < 3)

/-- The employees with no bid for the given shift (lines 154-156). -/
def missingShiftBid (s : SchedState) (sh : String) : List String :=
  (pyDedup s.employees).filter (fun e => shiftBidCount s.bids e sh < 1)

/-- The aggregated report dictionary employees_with_incorrect_bids
(lines 157-166): each of the four condition lists is added, under its
label, only when non-empty. -/
def bidReport (s : SchedState) : List (String × List String) :=
  (if notEnoughBids s ≠ [] then
    [("Employees with less than 3 bids", notEnoughBids s)] else []) ++
  (if missingShiftBid s "Early" ≠ [] then
    [("Employees without an Early bid", missingShiftBid s "Early")] else []) ++
  (if missingShiftBid s "Late" ≠ [] then
    [("Employees without a Late bid", missingShiftBid s "Late")] else []) ++
  (if missingShiftBid s "Night" ≠ [] then
    [("Employees without a Night bid", missingShiftBid s "Night")] else [])

/-- itertools.product(employees, duties, shifts) in iteration order
(line 172): rightmost component varies fastest. -/
def allCombinations (s : SchedState) : List BidKey :=
  s.employees ×ˢ (s.duties ×ˢ s.shifts)

/-- The completion loop of lines 173-175: every combination not already a
key of the (accumulating) bids dictionary is inserted with weight 0.0. -/
def completeLoop (bids : List (BidKey × ℚ)) (combos : List BidKey) :
    List (BidKey × ℚ) :=
  combos.foldl (fun acc c =>
    if (dlookup acc c).isSome then acc else acc ++ [(c, (0 : ℚ))]) bids

/-- Scheduler.completeBids.  Both raises (lines 136 and 169) happen before
the completion loop of lines 171-175, the only statement that mutates the
object; the result pairs the outcome with the state of the object when the
method returns or raises. -/
def completeBids (s : SchedState) : Option VErr × SchedState :=
  match firstInvalidKey s with
  | some k => (some (.invalidKey k.1 k.2.1 k.2.2), s)
  | none =>
    if bidReport s ≠ [] then (some (.incorrectBids (bidReport s)), s)
    else (none, { s with bids := completeLoop s.bids (allCombinations s) })

/-! ### Scheduler.setUpProblem (scheduler.py lines 177-254) -/

/-- The decision-variable universe built by pulp.LpVariable.dicts
(lines 197-202): one binary variable per (employee, duty, shift, rotation),
with the rightmost index varying fastest. -/
def allVars (s : SchedState) : List DVar :=
  s.employees ×ˢ (s.duties ×ˢ (s.shifts ×ˢ s.rotations))

/-- The objective terms of lines 208-212: for each variable in universe
order, the weight self.bids[(e, d, sh)] times that variable.  A missing
bid key raises a KeyError at the first variable whose lookup fails, which
cannot occur after validation but is kept as in the source. -/
def mkObjective (bids : List (BidKey × ℚ)) : List DVar →
    Except String (List (ℚ × DVar))
  | [] => .ok []
  | v :: vs =>
    match dlookup bids (v.1, v.2.1, v.2.2.1) with
    | none => .error "KeyError: missing bid"
    | some w =>
      match mkObjective bids vs with
      | .error msg => .error msg
      | .ok rest => .ok ((w, v) :: rest)

/-- Constraint family of lines 217-225: for each employee and each rotation
week, the sum over (duty, shift) of the allocation variables equals 1. -/
def consEmpRot (s : SchedState) : List LinCon :=
  s.employees.flatMap (fun e =>
    s.rotations.map (fun r =>
      { terms := s.duties.flatMap (fun d =>
          s.shifts.map (fun sh => (e, d, sh, r))),
        sense := .eq, rhs := 1 }))

/-- Constraint family of lines 234-242: for each employee and each shift,
the sum over (duty, rotation) of the allocation variables equals 1. -/
def consEmpShift (s : SchedState) : List LinCon :=
  s.employees.flatMap (fun e =>
    s.shifts.map (fun sh =>
      { terms := s.duties.flatMap (fun d =>
          s.rotations.map (fun r => (e, d, sh, r))),
        sense := .eq, rhs := 1 }))

/-- Constraint family of lines 245-254: for each duty, shift and rotation,
the sum over employees of the allocation variables is at most 1. -/
def consSlot (s : SchedState) : List LinCon :=
  s.duties.flatMap (fun d =>
    s.shifts.flatMap (fun sh =>
      s.rotations.map (fun r =>
        { terms := s.employees.map (fun e => (e, d, sh, r)),
          sense := .le, rhs := 1 })))

/-- Scheduler.setUpProblem: declares every decision variable with
cat Binary (line 202), creates the problem as a maximization
(pulp.LpMaximize, line 205), builds the objective and the three constraint
families, in source order, and stores the problem on the Scheduler.  The
method performs no emptiness check on the input lists; its only failure is
the KeyError from a missing bid lookup. -/
def setUpProblem (s : SchedState) : Except String SchedState :=
  match mkObjective s.bids (allVars s) with
  | .error msg => .error msg
  | .ok obj =>
    .ok { s with prob := some (PModel.mk .maximize .binary (allVars s) obj
      (consEmpRot s ++ consEmpShift s ++ consSlot s)) }

/-! ### Semantics of a built problem -/

/-- Value of a constraint body under an assignment of the decision
variables: each term has coefficient 1. -/
def evalTerms (x : DVar → ℚ) (ts : List DVar) : ℚ :=
  (ts.map x).sum

/-- Satisfaction of one constraint under an assignment. -/
def conHolds (x : DVar → ℚ) (c : LinCon) : Prop :=
  match c.sense with
  | .eq => evalTerms x c.terms = c.rhs
  | .le => evalTerms x c.terms ≤ c.rhs

/-- Satisfaction of every constraint of a model. -/
def satAll (m : PModel) (x : DVar → ℚ) : Prop :=
  ∀ c ∈ m.constraints, conHolds x c

/-- Objective value of a model under an assignment. -/
def objValue (m : PModel) (x : DVar → ℚ) : ℚ :=
  (m.objective.map (fun t => t.1 * x t.2)).sum

/-- The bid weight used by the objective (total after completion). -/
def bidWeight (s : SchedState) (e d sh : String) : ℚ :=
  (dlookup s.bids (e, d, sh)).getD 0

/-- An assignment is binary when every variable is 0 or 1. -/
def binaryAssignment (x : DVar → ℚ) : Prop :=
  ∀ v : DVar, x v = 0 ∨ x v = 1

/-- The multiset view of a constraint: the order of the terms inside a
constraint and the order of emission carry no meaning for the solver. -/
def normCon (c : LinCon) : Multiset DVar × CSense × ℚ :=
  ((c.terms : Multiset DVar), c.sense, c.rhs)

/-! ### Scheduler.solveProblem (scheduler.py lines 256-266) -/

/-- The pulp variable-name translation table: LpVariable replaces every
occurrence of the characters of "-+[] ->/" by an underscore. -/
def pulpTranslate (s : String) : String :=
  String.mk (s.toList.map (fun c =>
    if ("-+[] ->/".toList.contains c) then Char.ofNat 95 else c))

/-- The apostrophe character, written by its code point. -/
def quoteChar : Char := Char.ofNat 39

/-- A one-character string holding an apostrophe. -/
def quoteStr : String := String.mk [quoteChar]

/-- The name pulp gives the decision variable of index (e, d, sh, r):
LpVariable.dicts formats the prefix Allocation with the str of the index
tuple, then the translation table turns the spaces after the commas (and
any space or hyphen inside the identifiers) into underscores. -/
def varName (v : DVar) : String :=
  pulpTranslate ("Allocation_(" ++ quoteStr ++ v.1 ++ quoteStr ++ ", " ++
    quoteStr ++ v.2.1 ++ quoteStr ++ ", " ++ quoteStr ++ v.2.2.1 ++
    quoteStr ++ ", " ++ quoteStr ++ v.2.2.2 ++ quoteStr ++ ")")

/-- The status codes a pulp solve reports on the problem object. -/
inductive SStatus where
  | optimal
  | infeasible
  | unbounded
  | undefined
  | notSolved
deriving DecidableEq, Repr

/-- The outcome of the external solver call self.prob.solve(): pulp either
raises (backend failure, modelled as the raised case) or returns normally
after storing a status code on the problem and a value, possibly None, on
each variable.  Infeasibility is reported through the status code, not
through an exception. -/
inductive SResponse where
  | raised (msg : String)
  | solved (status : SStatus) (value : DVar → Option ℚ)

/-- The loop of lines 264-266 over prob.variables(): every variable whose
value compares greater than 0 is stored in the allocations dictionary under
its pulp name.  A variable left without a value makes the comparison
v.varValue > 0 raise a TypeError. -/
def allocLoop (value : DVar → Option ℚ) :
    List DVar → List (PyKey × ℚ) → Except String (List (PyKey × ℚ))
  | [], acc => .ok acc
  | v :: vs, acc =>
    match value v with
    | none => .error "TypeError: NoneType is not comparable to int"
    | some q =>
      if q > 0 then
        allocLoop value vs (pyInsert acc (PyKey.str (varName v)) q)
      else allocLoop value vs acc

/-- Scheduler.solveProblem, parametrized by the response of the external
solver.  When no problem was set up, the guard of line 260 skips the solve
and line 264 then raises an AttributeError on None.  The method never reads
the status the solver stored: it harvests every positive variable value
into the allocations dictionary whatever the reported status was. -/
def solveProblem (s : SchedState) (resp : SResponse) :
    Except String SchedState :=
  match s.prob with
  | none => .error "AttributeError: NoneType has no attribute variables"
  | some m =>
    match resp with
    | .raised msg => .error msg
    | .solved _ value =>
      match allocLoop value m.vars s.allocations with
      | .error msg => .error msg
      | .ok acc => .ok { s with allocations := acc }

/-! ### Scheduler.cleanAllocations (scheduler.py lines 69-122) -/

/-- Python str.strip(chars): remove from both ends every leading and
trailing character belonging to the given set. -/
def stripChars (cs : List Char) (s : String) : String :=
  String.mk (((s.toList.dropWhile (fun c => cs.contains c)).reverse.dropWhile
    (fun c => cs.contains c)).reverse)

/-- Python str.replace with a one-character pattern and a one-character
replacement, the only form cleanAllocations uses: a character map. -/
def pyReplaceChar (a b : Char) (s : String) : String :=
  String.mk (s.toList.map (fun c => if c = a then b else c))

/-- The character set of the Python literal given to the first strip of
line 92: the letters of Allocation_( together with a backslash. -/
def allocStripSet : List Char := "Allocation_(".toList ++ [Char.ofNat 92]

/-- Python split on the two-character separator of line 78, left to right
and non-overlapping. -/
def splitCommaUnderscore : List Char → List (List Char)
  | [] => [[]]
  | ',' :: '_' :: rest => [] :: splitCommaUnderscore rest
  | c :: rest =>
    match splitCommaUnderscore rest with
    | [] => [[c]]
    | h :: t => (c :: h) :: t

/-- Cleaning of the Employee column (lines 92-94): strip the variable-name
prefix characters, strip apostrophes, turn underscores into spaces. -/
def cleanEmployee (f : String) : String :=
  pyReplaceChar '_' ' ' (stripChars [quoteChar] (stripChars allocStripSet f))

/-- Cleaning of the Duty column (lines 95-96). -/
def cleanDuty (f : String) : String :=
  pyReplaceChar '_' ' ' (stripChars [quoteChar] f)

/-- Cleaning of the Shift column (line 97): no underscore replacement. -/
def cleanShift (f : String) : String :=
  stripChars [quoteChar] f

/-- Cleaning of the Week column (lines 98-99): strip apostrophes and the
closing parenthesis, turn underscores into spaces. -/
def cleanWeek (f : String) : String :=
  pyReplaceChar '_' ' ' (stripChars [quoteChar, ')'] f)

/-- Cleansing of a bid key (lines 102-106): hyphens back to spaces in the
employee and duty, apostrophes stripped everywhere. -/
def cleanBidKey (k : BidKey) : String × String × String :=
  (stripChars [quoteChar] (pyReplaceChar '-' ' ' k.1),
   stripChars [quoteChar] (pyReplaceChar '-' ' ' k.2.1),
   stripChars [quoteChar] k.2.2)

/-- The split of one allocations key (line 78).  The keys written by
solveProblem are variable-name strings; after cleanAllocations has run they
are tuples, on which the split attribute lookup raises. -/
def parseAllocKey : PyKey × ℚ → Except String (List String × ℚ)
  | (.str k, v) => .ok ((splitCommaUnderscore k.toList).map String.mk, v)
  | (.tup _, _) => .error "AttributeError: tuple has no attribute split"

/-- The parse loop of lines 77-80 over the allocations dictionary, raising
at the first key that is not a string. -/
def parseAllocRows : List (PyKey × ℚ) →
    Except String (List (List String × ℚ))
  | [] => .ok []
  | kv :: rest =>
    match parseAllocKey kv with
    | .error msg => .error msg
    | .ok row =>
      match parseAllocRows rest with
      | .error msg => .error msg
      | .ok rows => .ok (row :: rows)

/-- The DataFrame of line 81 with the column cleaning of lines 92-99: each
parsed row must have exactly the four key fields (a row of another width
does not fit the five declared columns and the frame construction or the
subsequent column operations fail, modelled as the error case). -/
def toAllocRows : List (List String × ℚ) →
    Except String (List ((String × String × String × String) × ℚ))
  | [] => .ok []
  | (fs, v) :: rest =>
    match fs with
    | [f0, f1, f2, f3] =>
      match toAllocRows rest with
      | .error msg => .error msg
      | .ok rows =>
        .ok (((cleanEmployee f0, cleanDuty f1, cleanShift f2, cleanWeek f3),
          v) :: rows)
    | _ => .error "ValueError: row does not fit the DataFrame columns"

/-- The (Employee, Duty, Shift) part of an allocation row. -/
def rowTriple (q : String × String × String × String) :
    String × String × String :=
  (q.1, q.2.1, q.2.2.1)

/-- The reconciliation loop of lines 114-119: for each cleansed positive
bid row in order, overwrite the Bid column of every allocation row whose
(Employee, Duty, Shift) matches. -/
def applyBidRows (bidRows : List ((String × String × String) × ℚ))
    (rows : List ((String × String × String × String) × ℚ)) :
    List ((String × String × String × String) × ℚ) :=
  bidRows.foldl (fun acc br =>
    acc.map (fun rw => if rowTriple rw.1 = br.1 then (rw.1, br.2) else rw))
    rows

/-- The cleansed bid rows of lines 84-89 and 102-106: the bids with
positive weight, in dictionary order, with their keys cleansed. -/
def cleanBidRows (s : SchedState) :
    List ((String × String × String) × ℚ) :=
  (s.bids.filter (fun kv => kv.2 > 0)).map
    (fun kv => (cleanBidKey kv.1, kv.2))

/-- The dictionary comprehension of line 122: one entry per row, keyed by
the (Employee, Duty, Shift, Week) tuple; a repeated key keeps its first
position and takes the value of its last row. -/
def rebuildAllocs
    (rows : List ((String × String × String × String) × ℚ)) :
    List (PyKey × ℚ) :=
  rows.foldl (fun acc rw => pyInsert acc (PyKey.tup rw.1) rw.2) []

/-- Scheduler.cleanAllocations: parse the allocation keys, clean the
columns, zero the Bid column (line 110), reconcile against the non-zero
original bids (lines 84-89 and 114-119) and rebuild the allocations
dictionary keyed by (Employee, Duty, Shift, Week) tuples (line 122). -/
def cleanAllocations (s : SchedState) : Except String SchedState :=
  match parseAllocRows s.allocations with
  | .error msg => .error msg
  | .ok parsed =>
    match toAllocRows parsed with
    | .error msg => .error msg
    | .ok rows =>
      .ok { s with allocations :=
        rebuildAllocs (applyBidRows (cleanBidRows s)
          (rows.map (fun rw => (rw.1, (0 : ℚ))))) }

/-! ### Concrete instances used by witnesses and counterexamples -/

/-- A well-formed one-employee instance: three bids, one per shift. -/
def okState : SchedState :=
  { employees := ["Ann"], duties := ["Mail"],
    shifts := ["Early", "Late", "Night"], rotations := ["W1", "W2", "W3"],
    bids := [(("Ann", "Mail", "Early"), 1), (("Ann", "Mail", "Late"), 1),
             (("Ann", "Mail", "Night"), 1)],
    prob := none, allocations := [] }

/-- An instance whose employee has only two bids and no Night bid. -/
def deficientState : SchedState :=
  { okState with
    bids := [(("Ann", "Mail", "Early"), 1), (("Ann", "Mail", "Late"), 1)] }

/-- An instance whose bid dictionary references an unknown employee. -/
def invalidKeyState : SchedState :=
  { okState with bids := [(("Zed", "Mail", "Early"), 1)] }

/-- The all-empty Scheduler instance. -/
def emptyState : SchedState :=
  { employees := [], duties := [], shifts := [], rotations := [],
    bids := [], prob := none, allocations := [] }

/-- A minimal one-slot instance for exercising the solver adapter. -/
def tinyState : SchedState :=
  { employees := ["Ann"], duties := ["Mail"], shifts := ["Early"],
    rotations := ["W1"], bids := [(("Ann", "Mail", "Early"), 1)],
    prob := none, allocations := [] }

/-- The problem setUpProblem builds for tinyState. -/
def tinyModel : PModel :=
  PModel.mk .maximize .binary [("Ann", "Mail", "Early", "W1")]
    [(1, ("Ann", "Mail", "Early", "W1"))]
    [LinCon.mk [("Ann", "Mail", "Early", "W1")] .eq 1,
     LinCon.mk [("Ann", "Mail", "Early", "W1")] .eq 1,
     LinCon.mk [("Ann", "Mail", "Early", "W1")] .le 1]

/-- tinyState after its problem has been set up. -/
def tinyProbState : SchedState := { tinyState with prob := some tinyModel }

/-- A solver response that reports infeasibility while leaving values on
the variables, as the CBC backend does through pulp. -/
def infeasibleResp : SResponse := .solved .infeasible (fun _ => some 1)

/-- The state solveProblem produces from tinyProbState and
infeasibleResp. -/
def tinyAfter : SchedState :=
  { tinyProbState with allocations :=
      [(PyKey.str (varName ("Ann", "Mail", "Early", "W1")), 1)] }

/-- A solved one-slot instance ready for cleanAllocations: one allocation
row under its pulp variable name, and one positive original bid for it. -/
def allocState : SchedState :=
  { employees := ["Bob"], duties := ["Mail"], shifts := ["Early"],
    rotations := ["W1"], bids := [(("Bob", "Mail", "Early"), 5)],
    prob := none,
    allocations :=
      [(PyKey.str (varName ("Bob", "Mail", "Early", "W1")), 1)] }

/-- The normalized allocations cleanAllocations produces from
allocState: the key is now a tuple and the weight is the bid weight. -/
def allocResult : SchedState :=
  { allocState with allocations :=
      [(PyKey.tup ("Bob", "Mail", "Early", "W1"), 5)] }

/-- The three-bid instance with the employee list in the other order. -/
def permState₁ : SchedState :=
  { employees := ["Ann", "Bob"], duties := ["Mail"], shifts := ["Early"],
    rotations := ["W1"],
    bids := [(("Ann", "Mail", "Early"), 1), (("Bob", "Mail", "Early"), 2)],
    prob := none, allocations := [] }

/-- permState₁ with its employee list reversed; everything else fixed. -/
def permState₂ : SchedState :=
  { permState₁ with employees := ["Bob", "Ann"] }

/-! ### Dictionary lemmas -/

theorem dlookup_append {α β : Type} [DecidableEq α] (a b : List (α × β)) (k : α) :
    dlookup (a ++ b) k = (dlookup a k).or (dlookup b k) := by
  unfold dlookup
  rw [List.find?_append]
  cases a.find? (fun kv => kv.1 = k) <;> simp

theorem dlookup_nil {α β : Type} [DecidableEq α] (k : α) :
    dlookup ([] : List (α × β)) k = none := rfl

theorem dlookup_cons {α β : Type} [DecidableEq α] (a : α × β)
    (t : List (α × β)) (k : α) :
    dlookup (a :: t) k = if a.1 = k then some a.2 else dlookup t k := by
  by_cases h : a.1 = k
  · rw [if_pos h]
    unfold dlookup
    rw [List.find?_cons_of_pos _ (by simp [h])]
    rfl
  · rw [if_neg h]
    unfold dlookup
    rw [List.find?_cons_of_neg _ (by simp [h])]

theorem dlookup_singleton {α β : Type} [DecidableEq α] (c : α) (v : β) (k : α) :
    dlookup [(c, v)] k = if k = c then some v else none := by
  rw [dlookup_cons, dlookup_nil]
  by_cases h : k = c
  · rw [if_pos h, if_pos h.symm]
  · rw [if_neg h, if_neg (fun hh => h hh.symm)]

theorem dlookup_isSome_iff {α β : Type} [DecidableEq α]
    (m : List (α × β)) (k : α) :
    (dlookup m k).isSome ↔ k ∈ m.map (fun kv => kv.1) := by
  induction m with
  | nil => simp [dlookup_nil]
  | cons a t ih =>
    rw [dlookup_cons]
    by_cases h : a.1 = k
    · simp [h]
    · rw [if_neg h]
      simp only [List.map_cons, List.mem_cons, ih]
      constructor
      · exact Or.inr
      · rintro (hh | hh)
        · exact absurd hh.symm h
        · exact hh

theorem dlookup_eq_none_iff {α β : Type} [DecidableEq α]
    (m : List (α × β)) (k : α) :
    dlookup m k = none ↔ k ∉ m.map (fun kv => kv.1) := by
  rw [← dlookup_isSome_iff]
  cases dlookup m k <;> simp

/-- Keys of a pyDedup run: membership is unchanged. -/
theorem mem_pyDedup {α : Type} [DecidableEq α] (l : List α) (x : α) :
    x ∈ pyDedup l ↔ x ∈ l := by
  have h : ∀ (l : List α) (acc : List α),
      x ∈ l.foldl (fun acc a => if a ∈ acc then acc else acc ++ [a]) acc ↔
        x ∈ acc ∨ x ∈ l := by
    intro l
    induction l with
    | nil => simp
    | cons a t ih =>
      intro acc
      simp only [List.foldl_cons, ih]
      by_cases ha : a ∈ acc
      · simp only [if_pos ha, List.mem_cons]
        constructor
        · rintro (h | h)
          · exact Or.inl h
          · exact Or.inr (Or.inr h)
        · rintro (h | h | h)
          · exact Or.inl h
          · exact Or.inl (h ▸ ha)
          · exact Or.inr h
      · simp only [if_neg ha, List.mem_append, List.mem_singleton, List.mem_cons]
        tauto
  rw [pyDedup, h]
  simp

/-! ### Lemmas about the completion loop -/

theorem completeLoop_nil (bids : List (BidKey × ℚ)) :
    completeLoop bids [] = bids := rfl

theorem completeLoop_cons (bids : List (BidKey × ℚ)) (c : BidKey)
    (cs : List BidKey) :
    completeLoop bids (c :: cs) =
      completeLoop (if (dlookup bids c).isSome then bids else bids ++ [(c, 0)])
        cs := by
  unfold completeLoop
  simp only [List.foldl_cons]

/-- Lookup after the completion loop: an existing entry wins, otherwise a
combination gets weight 0 and anything else stays absent. -/
theorem dlookup_completeLoop (bids : List (BidKey × ℚ)) (combos : List BidKey)
    (k : BidKey) :
    dlookup (completeLoop bids combos) k =
      (dlookup bids k).or (if k ∈ combos then some 0 else none) := by
  induction combos generalizing bids with
  | nil => simp [completeLoop_nil]
  | cons c cs ih =>
    rw [completeLoop_cons]
    by_cases hc : (dlookup bids c).isSome
    · rw [if_pos hc, ih]
      by_cases hk : k = c
      · subst hk
        obtain ⟨v, hv⟩ := Option.isSome_iff_exists.mp hc
        simp [hv]
      · simp [List.mem_cons, hk]
    · rw [if_neg hc, ih, dlookup_append, dlookup_singleton]
      by_cases hk : k = c
      · subst hk
        rw [Option.not_isSome_iff_eq_none] at hc
        simp [hc]
      · simp [List.mem_cons, hk]

/-- The completion loop appends entries: the original dictionary is kept as
a prefix, and every appended entry is a combination with weight 0. -/
theorem completeLoop_eq_append (bids : List (BidKey × ℚ)) (combos : List BidKey) :
    ∃ extra, completeLoop bids combos = bids ++ extra ∧
      ∀ kv ∈ extra, kv.1 ∈ combos ∧ kv.2 = 0 := by
  induction combos generalizing bids with
  | nil => exact ⟨[], by simp [completeLoop_nil]⟩
  | cons c cs ih =>
    rw [completeLoop_cons]
    by_cases hc : (dlookup bids c).isSome
    · rw [if_pos hc]
      obtain ⟨extra, he, hp⟩ := ih bids
      exact ⟨extra, he, fun kv hkv => ⟨List.mem_cons_of_mem _ (hp kv hkv).1,
        (hp kv hkv).2⟩⟩
    · rw [if_neg hc]
      obtain ⟨extra, he, hp⟩ := ih (bids ++ [(c, 0)])
      refine ⟨(c, 0) :: extra, by simpa using he, ?_⟩
      intro kv hkv
      rcases List.mem_cons.mp hkv with rfl | hkv'
      · exact ⟨List.mem_cons_self _ _, rfl⟩
      · exact ⟨List.mem_cons_of_mem _ (hp kv hkv').1, (hp kv hkv').2⟩

/-- The completion loop preserves uniqueness of dictionary keys. -/
theorem completeLoop_nodup (bids : List (BidKey × ℚ)) (combos : List BidKey)
    (h : (bids.map (fun kv => kv.1)).Nodup) :
    ((completeLoop bids combos).map (fun kv => kv.1)).Nodup := by
  induction combos generalizing bids with
  | nil => simpa [completeLoop_nil] using h
  | cons c cs ih =>
    rw [completeLoop_cons]
    by_cases hc : (dlookup bids c).isSome
    · rw [if_pos hc]; exact ih bids h
    · rw [if_neg hc]
      refine ih (bids ++ [(c, 0)]) ?_
      rw [Option.not_isSome_iff_eq_none, dlookup_eq_none_iff] at hc
      simp only [List.map_append, List.map_cons, List.map_nil]
      rw [List.nodup_append]
      refine ⟨h, List.nodup_singleton c, ?_⟩
      intro a ha hb
      rw [List.mem_singleton] at hb
      exact hc (hb ▸ ha)

/-- When every combination is already a key, the completion loop is the
identity. -/
theorem completeLoop_of_covered :
    ∀ (combos : List BidKey) (bids : List (BidKey × ℚ)),
      (∀ c ∈ combos, (dlookup bids c).isSome) →
        completeLoop bids combos = bids := by
  intro combos
  induction combos with
  | nil => intro bids _; rfl
  | cons c cs ih =>
    intro bids h
    rw [completeLoop_cons, if_pos (h c (List.mem_cons_self c cs))]
    exact ih bids (fun x hx => h x (List.mem_cons_of_mem c hx))

/-! ### Characterization of completeBids -/

/-- The first validation loop passes exactly when every bid key references
the master lists. -/
theorem firstInvalidKey_eq_none_iff (s : SchedState) :
    firstInvalidKey s = none ↔
      ∀ kv ∈ s.bids, kv.1.1 ∈ s.employees ∧ kv.1.2.1 ∈ s.duties ∧
        kv.1.2.2 ∈ s.shifts := by
  unfold firstInvalidKey
  rw [List.find?_eq_none]
  constructor
  · intro h kv hkv
    have := h kv.1 (List.mem_map_of_mem _ hkv)
    simpa [and_assoc] using this
  · intro h k hk
    obtain ⟨kv, hkv, rfl⟩ := List.mem_map.mp hk
    simpa [and_assoc] using h kv hkv

/-- The aggregated report is empty exactly when all four deficiency lists
are empty. -/
theorem bidReport_eq_nil_iff (s : SchedState) :
    bidReport s = [] ↔
      notEnoughBids s = [] ∧ missingShiftBid s "Early" = [] ∧
      missingShiftBid s "Late" = [] ∧ missingShiftBid s "Night" = [] := by
  unfold bidReport
  by_cases h1 : notEnoughBids s ≠ [] <;>
    by_cases h2 : missingShiftBid s "Early" ≠ [] <;>
      by_cases h3 : missingShiftBid s "Late" ≠ [] <;>
        by_cases h4 : missingShiftBid s "Night" ≠ [] <;>
          simp [h1, h2, h3, h4] <;>
            simp only [not_not] at h1 h2 h3 h4 <;> simp [h1, h2, h3, h4]

/-- Membership in the Cartesian product of the master lists. -/
theorem mem_allCombinations (s : SchedState) (t : BidKey) :
    t ∈ allCombinations s ↔
      t.1 ∈ s.employees ∧ t.2.1 ∈ s.duties ∧ t.2.2 ∈ s.shifts := by
  unfold allCombinations
  rw [List.mem_product, List.mem_product]

/-- Success of completeBids unfolded: both validations pass and only the
bids dictionary changes, via the completion loop. -/
theorem completeBids_eq_none_iff (s s' : SchedState) :
    completeBids s = (none, s') ↔
      firstInvalidKey s = none ∧ bidReport s = [] ∧
        s' = { s with bids := completeLoop s.bids (allCombinations s) } := by
  unfold completeBids
  cases hk : firstInvalidKey s with
  | some k => simp [hk]
  | none =>
    by_cases hr : bidReport s ≠ []
    · simp only [if_pos hr]
      simp [hr]
    · simp only [if_neg hr]
      rw [not_not] at hr
      simp [hr, eq_comm]

/-- C10: completeBids is atomic with respect to validation failure.  Both
raises (the invalid-key ValueError of line 136 and the aggregated ValueError
of line 169) happen before the completion loop of lines 171-175, the only
statement of the method that mutates Scheduler state, so whenever
completeBids raises, the bids dictionary and every other field of the
Scheduler are exactly as they were before the call. -/
theorem completeBids_atomic (s : SchedState) (e : VErr)
    (h : (completeBids s).1 = some e) : (completeBids s).2 = s := by
  unfold completeBids at h ⊢
  cases hk : firstInvalidKey s with
  | some k => simp
  | none =>
    by_cases hr : bidReport s ≠ []
    · simp [hr]
    · rw [hk] at h
      simp [hr] at h

/-- Witness for C10 at a concrete input: a bid referencing the unknown
employee Zed makes completeBids raise the invalid-key error and leave the
state untouched. -/
theorem completeBids_atomic_witness :
    (completeBids invalidKeyState).1 =
        some (.invalidKey "Zed" "Mail" "Early") ∧
      (completeBids invalidKeyState).2 = invalidKeyState :=
  ⟨by decide, completeBids_atomic invalidKeyState
    (.invalidKey "Zed" "Mail" "Early") (by decide)⟩

/-- C2: for master lists and a bid dictionary that passes validation,
completeBids leaves exactly one entry for every (employee, duty, shift)
triple of the Cartesian product of the master lists: a key is present
afterwards iff its components belong to the master lists, every triple
absent before maps to weight 0, every triple present before keeps its
original weight, and the keys remain pairwise distinct. -/
theorem completeBids_total (s s' : SchedState)
    (hnodup : (s.bids.map (fun kv => kv.1)).Nodup)
    (hok : completeBids s = (none, s')) :
    (∀ t : BidKey, (dlookup s'.bids t).isSome ↔
        t.1 ∈ s.employees ∧ t.2.1 ∈ s.duties ∧ t.2.2 ∈ s.shifts) ∧
    (∀ t : BidKey, dlookup s.bids t = none → t.1 ∈ s.employees →
        t.2.1 ∈ s.duties → t.2.2 ∈ s.shifts → dlookup s'.bids t = some 0) ∧
    (∀ (t : BidKey) (v : ℚ), dlookup s.bids t = some v →
        dlookup s'.bids t = some v) ∧
    (s'.bids.map (fun kv => kv.1)).Nodup := by
  obtain ⟨hinv, -, rfl⟩ := (completeBids_eq_none_iff s s').mp hok
  rw [firstInvalidKey_eq_none_iff] at hinv
  refine ⟨?_, ?_, ?_, completeLoop_nodup _ _ hnodup⟩
  · intro t
    show (dlookup (completeLoop s.bids (allCombinations s)) t).isSome ↔ _
    rw [dlookup_completeLoop]
    by_cases hmem : t ∈ allCombinations s
    · rw [if_pos hmem]
      cases dlookup s.bids t <;>
        simpa using (mem_allCombinations s t).mp hmem
    · rw [if_neg hmem]
      cases hdl : dlookup s.bids t with
      | none =>
        constructor
        · intro habs
          simp at habs
        · intro hc
          exact absurd ((mem_allCombinations s t).mpr hc) hmem
      | some v =>
        have ht : t ∈ s.bids.map (fun kv => kv.1) := by
          rw [← dlookup_isSome_iff, hdl]; rfl
        obtain ⟨kv, hkv, rfl⟩ := List.mem_map.mp ht
        simpa [and_assoc] using hinv kv hkv
  · intro t hnone h1 h2 h3
    show dlookup (completeLoop s.bids (allCombinations s)) t = some 0
    rw [dlookup_completeLoop, hnone,
      if_pos ((mem_allCombinations s t).mpr ⟨h1, h2, h3⟩)]
    rfl
  · intro t v hv
    show dlookup (completeLoop s.bids (allCombinations s)) t = some v
    rw [dlookup_completeLoop, hv]
    rfl

/-- Witness for C2 at a concrete input: the three-bid instance passes
validation and is already complete, so completeBids returns it unchanged. -/
theorem completeBids_total_witness :
    ((okState.bids.map (fun kv => kv.1)).Nodup ∧
      completeBids okState = (none, okState)) ∧
    ((∀ t : BidKey, (dlookup okState.bids t).isSome ↔
        t.1 ∈ okState.employees ∧ t.2.1 ∈ okState.duties ∧
          t.2.2 ∈ okState.shifts) ∧
     (∀ t : BidKey, dlookup okState.bids t = none → t.1 ∈ okState.employees →
        t.2.1 ∈ okState.duties → t.2.2 ∈ okState.shifts →
          dlookup okState.bids t = some 0) ∧
     (∀ (t : BidKey) (v : ℚ), dlookup okState.bids t = some v →
        dlookup okState.bids t = some v) ∧
     (okState.bids.map (fun kv => kv.1)).Nodup) :=
  ⟨⟨by decide, by decide⟩,
    completeBids_total okState okState (by decide) (by decide)⟩

/-- C5: when every bid key references the master lists and some employee is
deficient, completeBids raises one single aggregated error: its report lists,
for every employee and every one of the four conditions the employee
violates (fewer than 3 bids, no Early bid, no Late bid, no Night bid), that
employee under the label of that condition.  It never fails on just the
first violation found. -/
theorem completeBids_report_all (s : SchedState)
    (hkeys : ∀ kv ∈ s.bids, kv.1.1 ∈ s.employees ∧ kv.1.2.1 ∈ s.duties ∧
      kv.1.2.2 ∈ s.shifts)
    (hdef : ∃ e ∈ s.employees, bidCount s.bids e < 3 ∨
      shiftBidCount s.bids e "Early" < 1 ∨ shiftBidCount s.bids e "Late" < 1 ∨
      shiftBidCount s.bids e "Night" < 1) :
    ∃ r, completeBids s = (some (.incorrectBids r), s) ∧
      ∀ e ∈ s.employees,
        (bidCount s.bids e < 3 →
          ∃ l, ("Employees with less than 3 bids", l) ∈ r ∧ e ∈ l) ∧
        (shiftBidCount s.bids e "Early" < 1 →
          ∃ l, ("Employees without an Early bid", l) ∈ r ∧ e ∈ l) ∧
        (shiftBidCount s.bids e "Late" < 1 →
          ∃ l, ("Employees without a Late bid", l) ∈ r ∧ e ∈ l) ∧
        (shiftBidCount s.bids e "Night" < 1 →
          ∃ l, ("Employees without a Night bid", l) ∈ r ∧ e ∈ l) := by
  have hinv : firstInvalidKey s = none :=
    (firstInvalidKey_eq_none_iff s).mpr hkeys
  have hmemlist : ∀ e ∈ s.employees, ∀ p : String → Bool,
      p e → e ∈ (pyDedup s.employees).filter p := by
    intro e he p hp
    exact List.mem_filter.mpr ⟨(mem_pyDedup _ e).mpr he, hp⟩
  have hnonnil : ∀ (l : List String) (e : String), e ∈ l → l ≠ [] := by
    intro l e he h0
    rw [h0] at he
    exact absurd he (List.not_mem_nil e)
  have hne : bidReport s ≠ [] := by
    obtain ⟨e, he, hcond⟩ := hdef
    rw [Ne, bidReport_eq_nil_iff]
    rintro ⟨h1, h2, h3, h4⟩
    rcases hcond with hc | hc | hc | hc
    · exact hnonnil _ e (hmemlist e he _ (by simpa using hc)) h1
    · exact hnonnil _ e (hmemlist e he _ (by simpa using hc)) h2
    · exact hnonnil _ e (hmemlist e he _ (by simpa using hc)) h3
    · exact hnonnil _ e (hmemlist e he _ (by simpa using hc)) h4
  refine ⟨bidReport s, ?_, ?_⟩
  · unfold completeBids
    rw [hinv]
    simp [hne]
  · intro e he
    refine ⟨?_, ?_, ?_, ?_⟩
    · intro hc
      have hm : e ∈ notEnoughBids s := hmemlist e he _ (by simpa using hc)
      refine ⟨notEnoughBids s, ?_, hm⟩
      unfold bidReport
      rw [if_pos (hnonnil _ e hm)]
      simp
    · intro hc
      have hm : e ∈ missingShiftBid s "Early" :=
        hmemlist e he _ (by simpa using hc)
      refine ⟨missingShiftBid s "Early", ?_, hm⟩
      unfold bidReport
      rw [if_pos (hnonnil _ e hm)]
      simp
    · intro hc
      have hm : e ∈ missingShiftBid s "Late" :=
        hmemlist e he _ (by simpa using hc)
      refine ⟨missingShiftBid s "Late", ?_, hm⟩
      unfold bidReport
      rw [if_pos (hnonnil _ e hm)]
      simp
    · intro hc
      have hm : e ∈ missingShiftBid s "Night" :=
        hmemlist e he _ (by simpa using hc)
      refine ⟨missingShiftBid s "Night", ?_, hm⟩
      unfold bidReport
      rw [if_pos (hnonnil _ e hm)]
      simp

/-- Witness for C5 at a concrete input: Ann has two bids and no Night bid,
and the raised report lists Ann under both violated conditions at once. -/
theorem completeBids_report_all_witness :
    ((∀ kv ∈ deficientState.bids, kv.1.1 ∈ deficientState.employees ∧
        kv.1.2.1 ∈ deficientState.duties ∧
        kv.1.2.2 ∈ deficientState.shifts) ∧
      (∃ e ∈ deficientState.employees,
        bidCount deficientState.bids e < 3 ∨
        shiftBidCount deficientState.bids e "Early" < 1 ∨
        shiftBidCount deficientState.bids e "Late" < 1 ∨
        shiftBidCount deficientState.bids e "Night" < 1)) ∧
    (∃ r, completeBids deficientState = (some (.incorrectBids r),
        deficientState) ∧
      ∀ e ∈ deficientState.employees,
        (bidCount deficientState.bids e < 3 →
          ∃ l, ("Employees with less than 3 bids", l) ∈ r ∧ e ∈ l) ∧
        (shiftBidCount deficientState.bids e "Early" < 1 →
          ∃ l, ("Employees without an Early bid", l) ∈ r ∧ e ∈ l) ∧
        (shiftBidCount deficientState.bids e "Late" < 1 →
          ∃ l, ("Employees without a Late bid", l) ∈ r ∧ e ∈ l) ∧
        (shiftBidCount deficientState.bids e "Night" < 1 →
          ∃ l, ("Employees without a Night bid", l) ∈ r ∧ e ∈ l)) :=
  ⟨⟨by decide, by decide⟩,
    completeBids_report_all deficientState (by decide) (by decide)⟩

/-- C6: completion is idempotent, and for duplicate-free master lists the
completed dictionary has exactly |Employees| x |Duties| x |Shifts| entries.
Running completeBids on the state it produced succeeds and is a no-op. -/
theorem completeBids_idempotent (s s' : SchedState)
    (hnodup : (s.bids.map (fun kv => kv.1)).Nodup)
    (hE : s.employees.Nodup) (hD : s.duties.Nodup) (hS : s.shifts.Nodup)
    (hok : completeBids s = (none, s')) :
    completeBids s' = (none, s') ∧
      s'.bids.length =
        s.employees.length * s.duties.length * s.shifts.length := by
  obtain ⟨hinv, hrep, rfl⟩ := (completeBids_eq_none_iff s s').mp hok
  obtain ⟨extra, heq, hext⟩ := completeLoop_eq_append s.bids (allCombinations s)
  have hbids : ({ s with bids := completeLoop s.bids (allCombinations s) } :
      SchedState).bids = completeLoop s.bids (allCombinations s) := rfl
  -- every key of the completed dictionary references the master lists
  have hinv' : firstInvalidKey
      { s with bids := completeLoop s.bids (allCombinations s) } = none := by
    rw [firstInvalidKey_eq_none_iff]
    intro kv hkv
    rw [hbids, heq] at hkv
    rcases List.mem_append.mp hkv with hkv | hkv
    · exact (firstInvalidKey_eq_none_iff s).mp hinv kv hkv
    · exact (mem_allCombinations s kv.1).mp (hext kv hkv).1
  -- the completed dictionary still passes the coverage checks
  have hrep4 := (bidReport_eq_nil_iff s).mp hrep
  have hcountmono : ∀ e : String,
      bidCount s.bids e ≤ bidCount (completeLoop s.bids (allCombinations s)) e := by
    intro e
    rw [heq]
    unfold bidCount
    rw [List.map_append, List.countP_append]
    exact Nat.le_add_right _ _
  have hshiftmono : ∀ e sh : String,
      shiftBidCount s.bids e sh ≤
        shiftBidCount (completeLoop s.bids (allCombinations s)) e sh := by
    intro e sh
    rw [heq]
    unfold shiftBidCount
    rw [List.map_append, List.countP_append]
    exact Nat.le_add_right _ _
  have hrep' : bidReport
      { s with bids := completeLoop s.bids (allCombinations s) } = [] := by
    rw [bidReport_eq_nil_iff]
    refine ⟨?_, ?_, ?_, ?_⟩
    · show (pyDedup s.employees).filter
        (fun e => bidCount (completeLoop s.bids (allCombinations s)) e < 3) = []
      rw [List.filter_eq_nil_iff]
      intro e he
      have h3 := (List.filter_eq_nil_iff.mp hrep4.1) e he
      simp only [decide_eq_true_eq, not_lt] at h3 ⊢
      exact le_trans h3 (hcountmono e)
    · show (pyDedup s.employees).filter
        (fun e => shiftBidCount (completeLoop s.bids (allCombinations s))
          e "Early" < 1) = []
      rw [List.filter_eq_nil_iff]
      intro e he
      have h3 := (List.filter_eq_nil_iff.mp hrep4.2.1) e he
      simp only [decide_eq_true_eq, not_lt] at h3 ⊢
      exact le_trans h3 (hshiftmono e "Early")
    · show (pyDedup s.employees).filter
        (fun e => shiftBidCount (completeLoop s.bids (allCombinations s))
          e "Late" < 1) = []
      rw [List.filter_eq_nil_iff]
      intro e he
      have h3 := (List.filter_eq_nil_iff.mp hrep4.2.2.1) e he
      simp only [decide_eq_true_eq, not_lt] at h3 ⊢
      exact le_trans h3 (hshiftmono e "Late")
    · show (pyDedup s.employees).filter
        (fun e => shiftBidCount (completeLoop s.bids (allCombinations s))
          e "Night" < 1) = []
      rw [List.filter_eq_nil_iff]
      intro e he
      have h3 := (List.filter_eq_nil_iff.mp hrep4.2.2.2) e he
      simp only [decide_eq_true_eq, not_lt] at h3 ⊢
      exact le_trans h3 (hshiftmono e "Night")
  -- the second completion loop adds nothing
  have hcov : ∀ c ∈ allCombinations s,
      (dlookup (completeLoop s.bids (allCombinations s)) c).isSome := by
    intro c hc
    rw [dlookup_completeLoop, if_pos hc]
    cases dlookup s.bids c <;> simp
  have hloop : completeLoop (completeLoop s.bids (allCombinations s))
      (allCombinations s) = completeLoop s.bids (allCombinations s) :=
    completeLoop_of_covered _ _ hcov
  constructor
  · rw [completeBids_eq_none_iff]
    refine ⟨hinv', hrep', ?_⟩
    congr 1
    exact hloop.symm
  · have hkeysnodup :
        ((completeLoop s.bids (allCombinations s)).map (fun kv => kv.1)).Nodup :=
      completeLoop_nodup _ _ hnodup
    have hcombnodup : (allCombinations s).Nodup := hE.product (hD.product hS)
    have hmemiff : ∀ k : BidKey,
        k ∈ (completeLoop s.bids (allCombinations s)).map (fun kv => kv.1) ↔
          k ∈ allCombinations s := by
      intro k
      rw [← dlookup_isSome_iff, dlookup_completeLoop]
      constructor
      · intro hsome
        by_cases hmem : k ∈ allCombinations s
        · exact hmem
        · cases hdl : dlookup s.bids k with
          | none => rw [hdl, if_neg hmem] at hsome; simp at hsome
          | some v =>
            have ht : k ∈ s.bids.map (fun kv => kv.1) := by
              rw [← dlookup_isSome_iff, hdl]; rfl
            obtain ⟨kv, hkv, rfl⟩ := List.mem_map.mp ht
            exact (mem_allCombinations s kv.1).mpr
              ((firstInvalidKey_eq_none_iff s).mp hinv kv hkv)
      · intro hmem
        rw [if_pos hmem]
        cases dlookup s.bids k <;> simp
    have hperm := (List.perm_ext_iff_of_nodup hkeysnodup hcombnodup).mpr hmemiff
    show (completeLoop s.bids (allCombinations s)).length =
      s.employees.length * s.duties.length * s.shifts.length
    calc (completeLoop s.bids (allCombinations s)).length
        = ((completeLoop s.bids (allCombinations s)).map
            (fun kv => kv.1)).length := (List.length_map _ _).symm
      _ = (allCombinations s).length := hperm.length_eq
      _ = s.employees.length * s.duties.length * s.shifts.length := by
          unfold allCombinations
          rw [List.length_product, List.length_product, Nat.mul_assoc]

/-- Witness for C6 at a concrete input: rerunning completeBids on the
already-complete three-bid instance is a no-op, and the store has
1 x 1 x 3 entries. -/
theorem completeBids_idempotent_witness :
    ((okState.bids.map (fun kv => kv.1)).Nodup ∧ okState.employees.Nodup ∧
      okState.duties.Nodup ∧ okState.shifts.Nodup ∧
      completeBids okState = (none, okState)) ∧
    (completeBids okState = (none, okState) ∧
      okState.bids.length =
        okState.employees.length * okState.duties.length *
          okState.shifts.length) :=
  ⟨⟨by decide, by decide, by decide, by decide, by decide⟩,
    completeBids_idempotent okState okState (by decide) (by decide)
      (by decide) (by decide) (by decide)⟩

/-! ### Characterization of setUpProblem -/

theorem forall_mem_flatMap {α β : Type} (l : List α) (f : α → List β)
    (P : β → Prop) :
    (∀ c ∈ l.flatMap f, P c) ↔ ∀ a ∈ l, ∀ c ∈ f a, P c := by
  constructor
  · intro h a ha c hc
    exact h c (List.mem_flatMap.mpr ⟨a, ha, hc⟩)
  · intro h c hc
    obtain ⟨a, ha, hca⟩ := List.mem_flatMap.mp hc
    exact h a ha c hca

/-- When every needed bid is present, the objective is one term per
decision variable, with the looked-up weight as coefficient. -/
theorem mkObjective_ok (bids : List (BidKey × ℚ)) :
    ∀ vars : List DVar,
      (∀ v ∈ vars, (dlookup bids (v.1, v.2.1, v.2.2.1)).isSome) →
        mkObjective bids vars = .ok (vars.map (fun v =>
          ((dlookup bids (v.1, v.2.1, v.2.2.1)).getD 0, v))) := by
  intro vars
  induction vars with
  | nil => intro _; rfl
  | cons v vs ih =>
    intro h
    obtain ⟨w, hw⟩ :=
      Option.isSome_iff_exists.mp (h v (List.mem_cons_self v vs))
    unfold mkObjective
    rw [hw, ih (fun u hu => h u (List.mem_cons_of_mem v hu))]
    simp [hw]

/-- The objective construction succeeds exactly when every bid lookup it
performs succeeds; there is no check on the sizes of the input lists. -/
theorem mkObjective_ok_iff (bids : List (BidKey × ℚ)) :
    ∀ vars : List DVar,
      (∃ obj, mkObjective bids vars = .ok obj) ↔
        ∀ v ∈ vars, (dlookup bids (v.1, v.2.1, v.2.2.1)).isSome := by
  intro vars
  induction vars with
  | nil => simp [mkObjective]
  | cons v vs ih =>
    constructor
    · rintro ⟨obj, hobj⟩ u hu
      unfold mkObjective at hobj
      cases hdl : dlookup bids (v.1, v.2.1, v.2.2.1) with
      | none => rw [hdl] at hobj; simp at hobj
      | some w =>
        rw [hdl] at hobj
        rcases List.mem_cons.mp hu with rfl | hu'
        · rw [hdl]; rfl
        · cases hrest : mkObjective bids vs with
          | error msg => rw [hrest] at hobj; simp at hobj
          | ok rest => exact ih.mp ⟨rest, hrest⟩ u hu'
    · intro h
      exact ⟨_, mkObjective_ok bids (v :: vs) h⟩

/-- Unfolding of a successful setUpProblem run. -/
theorem setUpProblem_eq (s : SchedState)
    (hcov : ∀ v ∈ allVars s, (dlookup s.bids (v.1, v.2.1, v.2.2.1)).isSome) :
    setUpProblem s = .ok { s with prob := some (PModel.mk .maximize .binary
      (allVars s)
      ((allVars s).map (fun v =>
        ((dlookup s.bids (v.1, v.2.1, v.2.2.1)).getD 0, v)))
      (consEmpRot s ++ consEmpShift s ++ consSlot s)) } := by
  unfold setUpProblem
  rw [mkObjective_ok s.bids (allVars s) hcov]

theorem evalTerms_empRot (s : SchedState) (x : DVar → ℚ) (e r : String) :
    evalTerms x (s.duties.flatMap (fun d =>
        s.shifts.map (fun sh => (e, d, sh, r)))) =
      ((s.duties ×ˢ s.shifts).map (fun p => x (e, p.1, p.2, r))).sum := by
  unfold evalTerms
  simp [SProd.sprod, List.product, List.map_flatMap, List.map_map,
    Function.comp_def]

theorem evalTerms_empShift (s : SchedState) (x : DVar → ℚ) (e sh : String) :
    evalTerms x (s.duties.flatMap (fun d =>
        s.rotations.map (fun r => (e, d, sh, r)))) =
      ((s.duties ×ˢ s.rotations).map (fun p => x (e, p.1, sh, p.2))).sum := by
  unfold evalTerms
  simp [SProd.sprod, List.product, List.map_flatMap, List.map_map,
    Function.comp_def]

theorem evalTerms_slot (s : SchedState) (x : DVar → ℚ) (d sh r : String) :
    evalTerms x (s.employees.map (fun e => (e, d, sh, r))) =
      (s.employees.map (fun e => x (e, d, sh, r))).sum := by
  unfold evalTerms
  simp [List.map_map, Function.comp_def]

/-- The constraint set emitted by setUpProblem is satisfied exactly when
the three families of conditions hold. -/
theorem satAll_families (s : SchedState) (m : PModel)
    (hm : m.constraints = consEmpRot s ++ consEmpShift s ++ consSlot s)
    (x : DVar → ℚ) :
    satAll m x ↔
      (∀ e ∈ s.employees, ∀ r ∈ s.rotations,
        ((s.duties ×ˢ s.shifts).map (fun p => x (e, p.1, p.2, r))).sum = 1) ∧
      (∀ e ∈ s.employees, ∀ sh ∈ s.shifts,
        ((s.duties ×ˢ s.rotations).map
          (fun p => x (e, p.1, sh, p.2))).sum = 1) ∧
      (∀ d ∈ s.duties, ∀ sh ∈ s.shifts, ∀ r ∈ s.rotations,
        (s.employees.map (fun e => x (e, d, sh, r))).sum ≤ 1) := by
  unfold satAll
  rw [hm, List.forall_mem_append, List.forall_mem_append, and_assoc]
  refine and_congr ?_ (and_congr ?_ ?_)
  · unfold consEmpRot
    rw [forall_mem_flatMap]
    refine forall_congr' (fun e => imp_congr_right (fun _ => ?_))
    rw [List.forall_mem_map]
    refine forall_congr' (fun r => imp_congr_right (fun _ => ?_))
    show evalTerms x _ = 1 ↔ _
    rw [evalTerms_empRot]
  · unfold consEmpShift
    rw [forall_mem_flatMap]
    refine forall_congr' (fun e => imp_congr_right (fun _ => ?_))
    rw [List.forall_mem_map]
    refine forall_congr' (fun sh => imp_congr_right (fun _ => ?_))
    show evalTerms x _ = 1 ↔ _
    rw [evalTerms_empShift]
  · unfold consSlot
    rw [forall_mem_flatMap]
    refine forall_congr' (fun d => imp_congr_right (fun _ => ?_))
    rw [forall_mem_flatMap]
    refine forall_congr' (fun sh => imp_congr_right (fun _ => ?_))
    rw [List.forall_mem_map]
    refine forall_congr' (fun r => imp_congr_right (fun _ => ?_))
    show evalTerms x _ ≤ 1 ↔ _
    rw [evalTerms_slot]

theorem perm_flatMap {α β : Type} (l₁ l₂ : List α) (h : l₁.Perm l₂)
    (f : α → List β) : (l₁.flatMap f).Perm (l₂.flatMap f) :=
  (h.map f).flatten

/-- C1: for non-empty master lists and a bid dictionary defined on every
(employee, duty, shift) triple, setUpProblem succeeds and builds a
maximization problem (pulp.LpMaximize, line 205) over decision variables
declared Binary (line 202), whose objective value at any binary assignment
is the sum over all (e, d, sh, r) of bid[e, d, sh] times x[e, d, sh, r],
and whose emitted constraints are satisfied exactly when: for every
employee and week the sum over (duty, shift) is 1; for every employee and
shift the sum over (duty, week) is 1; and for every (duty, shift, week)
the sum over employees is at most 1. -/
theorem setUpProblem_model (s : SchedState)
    (hne : s.employees ≠ [] ∧ s.duties ≠ [] ∧ s.shifts ≠ [] ∧
      s.rotations ≠ [])
    (hcov : ∀ e ∈ s.employees, ∀ d ∈ s.duties, ∀ sh ∈ s.shifts,
      (dlookup s.bids (e, d, sh)).isSome) :
    ∃ m : PModel, setUpProblem s = .ok { s with prob := some m } ∧
      m.sense = .maximize ∧ m.cat = .binary ∧
      (∀ x : DVar → ℚ, binaryAssignment x →
        objValue m x =
          ((s.employees ×ˢ (s.duties ×ˢ (s.shifts ×ˢ s.rotations))).map
            (fun v => bidWeight s v.1 v.2.1 v.2.2.1 * x v)).sum) ∧
      (∀ x : DVar → ℚ, binaryAssignment x →
        (satAll m x ↔
          (∀ e ∈ s.employees, ∀ r ∈ s.rotations,
            ((s.duties ×ˢ s.shifts).map
              (fun p => x (e, p.1, p.2, r))).sum = 1) ∧
          (∀ e ∈ s.employees, ∀ sh ∈ s.shifts,
            ((s.duties ×ˢ s.rotations).map
              (fun p => x (e, p.1, sh, p.2))).sum = 1) ∧
          (∀ d ∈ s.duties, ∀ sh ∈ s.shifts, ∀ r ∈ s.rotations,
            (s.employees.map (fun e => x (e, d, sh, r))).sum ≤ 1))) := by
  have hcov' : ∀ v ∈ allVars s,
      (dlookup s.bids (v.1, v.2.1, v.2.2.1)).isSome := by
    intro v hv
    unfold allVars at hv
    rw [List.mem_product, List.mem_product, List.mem_product] at hv
    exact hcov v.1 hv.1 v.2.1 hv.2.1 v.2.2.1 hv.2.2.1
  refine ⟨PModel.mk .maximize .binary (allVars s) ((allVars s).map (fun v =>
      ((dlookup s.bids (v.1, v.2.1, v.2.2.1)).getD 0, v)))
      (consEmpRot s ++ consEmpShift s ++ consSlot s),
    setUpProblem_eq s hcov', rfl, rfl, ?_, ?_⟩
  · intro x _
    unfold objValue
    rw [List.map_map]
    rfl
  · intro x _
    exact satAll_families s _ rfl x

/-- Witness for C1 at a concrete input: the complete three-bid instance. -/
theorem setUpProblem_model_witness :
    ((okState.employees ≠ [] ∧ okState.duties ≠ [] ∧ okState.shifts ≠ [] ∧
        okState.rotations ≠ []) ∧
      (∀ e ∈ okState.employees, ∀ d ∈ okState.duties, ∀ sh ∈ okState.shifts,
        (dlookup okState.bids (e, d, sh)).isSome)) ∧
    (∃ m : PModel, setUpProblem okState = .ok { okState with prob := some m } ∧
      m.sense = .maximize ∧ m.cat = .binary ∧
      (∀ x : DVar → ℚ, binaryAssignment x →
        objValue m x =
          ((okState.employees ×ˢ (okState.duties ×ˢ
              (okState.shifts ×ˢ okState.rotations))).map
            (fun v => bidWeight okState v.1 v.2.1 v.2.2.1 * x v)).sum) ∧
      (∀ x : DVar → ℚ, binaryAssignment x →
        (satAll m x ↔
          (∀ e ∈ okState.employees, ∀ r ∈ okState.rotations,
            ((okState.duties ×ˢ okState.shifts).map
              (fun p => x (e, p.1, p.2, r))).sum = 1) ∧
          (∀ e ∈ okState.employees, ∀ sh ∈ okState.shifts,
            ((okState.duties ×ˢ okState.rotations).map
              (fun p => x (e, p.1, sh, p.2))).sum = 1) ∧
          (∀ d ∈ okState.duties, ∀ sh ∈ okState.shifts,
              ∀ r ∈ okState.rotations,
            (okState.employees.map (fun e => x (e, d, sh, r))).sum ≤ 1)))) :=
  ⟨⟨by decide, by decide⟩, setUpProblem_model okState (by decide) (by decide)⟩

/-- Counterexample to C7: setUpProblem contains no emptiness check and no
ModelConstructionError exists in the source; with all four master lists
empty it succeeds, building a problem with no variables, an empty
objective and no constraints, instead of failing. -/
theorem setUpProblem_empty_succeeds :
    setUpProblem emptyState =
      .ok { emptyState with
        prob := some (PModel.mk .maximize .binary [] [] []) } := by rfl

/-- C7 amended: setUpProblem performs no emptiness validation at all; it
succeeds exactly when every bid lookup made while building the objective
succeeds (one lookup per decision variable), and in particular it succeeds
whenever any master list is empty, because then there are no lookups for
the empty dimensions. -/
theorem setUpProblem_ok_iff_lookups (s : SchedState) :
    (∃ s', setUpProblem s = .ok s') ↔
      ∀ v ∈ allVars s, (dlookup s.bids (v.1, v.2.1, v.2.2.1)).isSome := by
  unfold setUpProblem
  constructor
  · rintro ⟨s', hs'⟩
    cases hobj : mkObjective s.bids (allVars s) with
    | error msg => rw [hobj] at hs'; simp at hs'
    | ok obj => exact (mkObjective_ok_iff s.bids (allVars s)).mp ⟨obj, hobj⟩
  · intro h
    rw [mkObjective_ok s.bids (allVars s) h]
    exact ⟨_, rfl⟩

/-- C9: permuting the employee list while fixing duties, shifts, rotation
weeks and the completed bid dictionary leaves the built problem the same:
setUpProblem still succeeds, the objective function is pointwise equal, the
emitted constraint set is satisfied by exactly the same assignments (so
feasibility is unchanged), and the constraints agree as a multiset once the
meaningless ordering of terms inside each constraint is ignored.  The
pre-build shuffle of main.py line 40 therefore only affects tie-breaking by
the solver, never the model. -/
theorem setUpProblem_perm_invariant (s₁ s₂ : SchedState)
    (hperm : s₁.employees.Perm s₂.employees)
    (hd : s₂.duties = s₁.duties) (hs : s₂.shifts = s₁.shifts)
    (hr : s₂.rotations = s₁.rotations) (hb : s₂.bids = s₁.bids)
    (hcov : ∀ v ∈ allVars s₁,
      (dlookup s₁.bids (v.1, v.2.1, v.2.2.1)).isSome) :
    ∃ m₁ m₂ : PModel,
      setUpProblem s₁ = .ok { s₁ with prob := some m₁ } ∧
      setUpProblem s₂ = .ok { s₂ with prob := some m₂ } ∧
      (∀ x : DVar → ℚ, objValue m₁ x = objValue m₂ x) ∧
      (∀ x : DVar → ℚ, satAll m₁ x ↔ satAll m₂ x) ∧
      (m₁.constraints.map normCon).Perm (m₂.constraints.map normCon) := by
  have hgen : (allVars s₁).Perm (allVars s₂) := by
    unfold allVars
    rw [hd, hs, hr]
    exact perm_flatMap _ _ hperm _
  have hcov₂ : ∀ v ∈ allVars s₂,
      (dlookup s₂.bids (v.1, v.2.1, v.2.2.1)).isSome := by
    intro v hv
    rw [hb]
    exact hcov v (hgen.mem_iff.mpr hv)
  refine ⟨_, _, setUpProblem_eq s₁ hcov, setUpProblem_eq s₂ hcov₂,
    ?_, ?_, ?_⟩
  · intro x
    unfold objValue
    simp only [List.map_map]
    rw [hb]
    exact (hgen.map _).sum_eq
  · intro x
    rw [satAll_families s₁ _ rfl x, satAll_families s₂ _ rfl x]
    rw [hd, hs, hr]
    refine and_congr ?_ (and_congr ?_ ?_)
    · constructor
      · intro h e he r hrr
        exact h e (hperm.mem_iff.mpr he) r hrr
      · intro h e he r hrr
        exact h e (hperm.mem_iff.mp he) r hrr
    · constructor
      · intro h e he sh hsh
        exact h e (hperm.mem_iff.mpr he) sh hsh
      · intro h e he sh hsh
        exact h e (hperm.mem_iff.mp he) sh hsh
    · refine forall_congr' (fun d => imp_congr_right (fun _ => ?_))
      refine forall_congr' (fun sh => imp_congr_right (fun _ => ?_))
      refine forall_congr' (fun r => imp_congr_right (fun _ => ?_))
      rw [(hperm.map (fun e => x (e, d, sh, r))).sum_eq]
  · show ((consEmpRot s₁ ++ consEmpShift s₁ ++ consSlot s₁).map
        normCon).Perm _
    rw [List.map_append, List.map_append, List.map_append, List.map_append]
    refine List.Perm.append (List.Perm.append ?_ ?_) ?_
    · refine List.Perm.map normCon ?_
      unfold consEmpRot
      rw [hd, hs, hr]
      exact perm_flatMap _ _ hperm _
    · refine List.Perm.map normCon ?_
      unfold consEmpShift
      rw [hd, hs, hr]
      exact perm_flatMap _ _ hperm _
    · have h3 : (consSlot s₁).map normCon = (consSlot s₂).map normCon := by
        unfold consSlot
        rw [hd, hs, hr]
        rw [List.map_flatMap, List.map_flatMap]
        congr 1
        funext d
        rw [List.map_flatMap, List.map_flatMap]
        congr 1
        funext sh
        rw [List.map_map, List.map_map]
        congr 1
        funext r
        show normCon _ = normCon _
        unfold normCon
        exact congrArg (fun ms => (ms, CSense.le, (1 : ℚ)))
          (Multiset.coe_eq_coe.mpr (hperm.map _))
      rw [h3]

/-- Witness for C9 at a concrete input: the two-employee instance and its
reversal. -/
theorem setUpProblem_perm_invariant_witness :
    (permState₁.employees.Perm permState₂.employees ∧
      permState₂.duties = permState₁.duties ∧
      permState₂.shifts = permState₁.shifts ∧
      permState₂.rotations = permState₁.rotations ∧
      permState₂.bids = permState₁.bids ∧
      (∀ v ∈ allVars permState₁,
        (dlookup permState₁.bids (v.1, v.2.1, v.2.2.1)).isSome)) ∧
    (∃ m₁ m₂ : PModel,
      setUpProblem permState₁ = .ok { permState₁ with prob := some m₁ } ∧
      setUpProblem permState₂ = .ok { permState₂ with prob := some m₂ } ∧
      (∀ x : DVar → ℚ, objValue m₁ x = objValue m₂ x) ∧
      (∀ x : DVar → ℚ, satAll m₁ x ↔ satAll m₂ x) ∧
      (m₁.constraints.map normCon).Perm (m₂.constraints.map normCon)) :=
  ⟨⟨by decide, by decide, by decide, by decide, by decide, by decide⟩,
    setUpProblem_perm_invariant permState₁ permState₂ (by decide) (by decide)
      (by decide) (by decide) (by decide) (by decide)⟩

/-! ### Claim C4: failure propagation around the solver call -/

/-- Counterexample to C4: the solver reports infeasibility on the one-slot
problem, yet solveProblem returns successfully with a non-empty allocations
dictionary, because lines 256-266 never read the reported status.  No
error reaches the caller and a best-effort allocation is produced. -/
theorem solveProblem_infeasible_allocates :
    setUpProblem tinyState = .ok tinyProbState ∧
    solveProblem tinyProbState infeasibleResp = .ok tinyAfter ∧
    tinyAfter.allocations ≠ [] :=
  ⟨rfl, rfl, by decide⟩

/-- C4 amended: solveProblem is oblivious to the status the solver
reports: for a fixed variable valuation its result is the same whatever
the status, so infeasibility signalled through the status code is never
surfaced.  An error reaches the caller only when the backend raises or
leaves a variable without a value, making the comparison with 0 raise. -/
theorem solveProblem_ignores_status (s : SchedState) (st₁ st₂ : SStatus)
    (value : DVar → Option ℚ) :
    solveProblem s (.solved st₁ value) = solveProblem s (.solved st₂ value) := by
  unfold solveProblem
  cases s.prob
  · rfl
  · rfl

/-! ### Lemmas about pyInsert and the rebuilt allocations dictionary -/

theorem dlookup_map_update_ne {α β : Type} [DecidableEq α]
    (m : List (α × β)) (k' : α) (v : β) (k : α) (hk : k ≠ k') :
    dlookup (m.map (fun kv => if kv.1 = k' then (k', v) else kv)) k =
      dlookup m k := by
  induction m with
  | nil => rfl
  | cons a t ih =>
    simp only [List.map_cons, dlookup_cons]
    by_cases ha : a.1 = k'
    · rw [if_pos ha]
      have h1 : ¬(((k', v) : α × β).1 = k) := fun h => hk h.symm
      have h2 : ¬(a.1 = k) := fun h => hk (h.symm.trans ha)
      rw [if_neg h1, if_neg h2]
      exact ih
    · rw [if_neg ha]
      by_cases hak : a.1 = k
      · rw [if_pos hak, if_pos hak]
      · rw [if_neg hak, if_neg hak]
        exact ih

theorem dlookup_map_update_self {α β : Type} [DecidableEq α]
    (m : List (α × β)) (k' : α) (v : β)
    (hmem : k' ∈ m.map (fun kv => kv.1)) :
    dlookup (m.map (fun kv => if kv.1 = k' then (k', v) else kv)) k' =
      some v := by
  induction m with
  | nil => simp at hmem
  | cons a t ih =>
    simp only [List.map_cons, dlookup_cons]
    by_cases ha : a.1 = k'
    · rw [if_pos ha]
      have h1 : (((k', v) : α × β)).1 = k' := rfl
      rw [if_pos h1]
    · rw [if_neg ha, if_neg ha]
      refine ih ?_
      simp only [List.map_cons, List.mem_cons] at hmem
      rcases hmem with h | h
      · exact absurd h.symm ha
      · exact h

/-- Lookup after a Python dictionary assignment: the assigned key now maps
to the new value, every other key is unchanged. -/
theorem dlookup_pyInsert {α β : Type} [DecidableEq α] (m : List (α × β))
    (k' : α) (v : β) (k : α) :
    dlookup (pyInsert m k' v) k = if k = k' then some v else dlookup m k := by
  unfold pyInsert
  by_cases hmem : m.any (fun kv => kv.1 = k') = true
  · rw [if_pos hmem]
    have hk' : k' ∈ m.map (fun kv => kv.1) := by
      obtain ⟨kv, hkv, hp⟩ := List.any_eq_true.mp hmem
      exact List.mem_map.mpr ⟨kv, hkv, by simpa using hp⟩
    by_cases hk : k = k'
    · rw [if_pos hk, hk]
      exact dlookup_map_update_self m k' v hk'
    · rw [if_neg hk]
      exact dlookup_map_update_ne m k' v k hk
  · rw [if_neg hmem, dlookup_append, dlookup_singleton]
    by_cases hk : k = k'
    · rw [if_pos hk, if_pos hk, hk]
      have : dlookup m k' = none := by
        rw [dlookup_eq_none_iff]
        intro hmm
        obtain ⟨kv, hkv, hp⟩ := List.mem_map.mp hmm
        exact hmem (List.any_eq_true.mpr ⟨kv, hkv, by simpa using hp⟩)
      rw [this]
      rfl
    · rw [if_neg hk, if_neg hk]
      cases dlookup m k <;> rfl

theorem mem_pyInsert_keys {α β : Type} [DecidableEq α] (m : List (α × β))
    (k : α) (v : β) :
    ∀ kv ∈ pyInsert m k v, kv.1 = k ∨ ∃ kv' ∈ m, kv.1 = kv'.1 := by
  intro kv hkv
  unfold pyInsert at hkv
  by_cases hmem : m.any (fun kv => kv.1 = k) = true
  · rw [if_pos hmem] at hkv
    obtain ⟨kv', hkv', heq⟩ := List.mem_map.mp hkv
    by_cases h : kv'.1 = k
    · left
      rw [← heq]
      simp [h]
    · right
      exact ⟨kv', hkv', by rw [← heq]; simp [h]⟩
  · rw [if_neg hmem] at hkv
    rcases List.mem_append.mp hkv with h | h
    · right
      exact ⟨kv, h, rfl⟩
    · left
      rw [List.mem_singleton] at h
      rw [h]

/-- Every key of the rebuilt allocations dictionary is a tuple. -/
theorem rebuildAllocs_keys_tup
    (rows : List ((String × String × String × String) × ℚ)) :
    ∀ kv ∈ rebuildAllocs rows, ∃ q, kv.1 = PyKey.tup q := by
  have hgen : ∀ (rows : List ((String × String × String × String) × ℚ))
      (init : List (PyKey × ℚ)),
      (∀ kv ∈ init, ∃ q, kv.1 = PyKey.tup q) →
      ∀ kv ∈ rows.foldl
          (fun acc rw => pyInsert acc (PyKey.tup rw.1) rw.2) init,
        ∃ q, kv.1 = PyKey.tup q := by
    intro rows
    induction rows with
    | nil => intro init h kv hkv; exact h kv hkv
    | cons rw rows ih =>
      intro init h kv hkv
      refine ih _ ?_ kv hkv
      intro kv' hkv'
      rcases mem_pyInsert_keys init (PyKey.tup rw.1) rw.2 kv' hkv' with
        h1 | ⟨kv'', hkv'', h2⟩
      · exact ⟨rw.1, h1⟩
      · rw [h2]
        exact h kv'' hkv''
  exact hgen rows [] (by intro kv hkv; simp at hkv)

/-- Success of cleanAllocations unfolded: the parse and the DataFrame
construction succeed, and only the allocations dictionary changes, rebuilt
from the zeroed and reconciled rows. -/
theorem cleanAllocations_ok_iff (s s' : SchedState) :
    cleanAllocations s = .ok s' ↔
      ∃ parsed rows, parseAllocRows s.allocations = .ok parsed ∧
        toAllocRows parsed = .ok rows ∧
        s' = { s with allocations := rebuildAllocs (applyBidRows
          (cleanBidRows s) (rows.map (fun rw => (rw.1, (0 : ℚ))))) } := by
  constructor
  · intro hok
    unfold cleanAllocations at hok
    split at hok
    · exact absurd hok (by simp)
    · next parsed hp =>
      split at hok
      · exact absurd hok (by simp)
      · next rows ht =>
        exact ⟨parsed, rows, hp, ht, by
          rw [Except.ok.injEq] at hok
          rw [hok]⟩
  · rintro ⟨parsed, rows, hp, ht, rfl⟩
    unfold cleanAllocations
    split
    · next msg heq =>
      rw [hp] at heq
      cases heq
    · next parsed' heq =>
      rw [hp] at heq
      injection heq with h
      subst h
      split
      · next msg heq2 =>
        rw [ht] at heq2
        cases heq2
      · next rows' heq2 =>
        rw [ht] at heq2
        injection heq2 with h2
        subst h2
        rfl

/-- A successful cleanAllocations leaves only tuple keys in the
allocations dictionary. -/
theorem cleanAllocations_keys_tup (s s' : SchedState)
    (hok : cleanAllocations s = .ok s') :
    ∀ kv ∈ s'.allocations, ∃ q, kv.1 = PyKey.tup q := by
  obtain ⟨parsed, rows, -, -, rfl⟩ := (cleanAllocations_ok_iff s s').mp hok
  exact rebuildAllocs_keys_tup _

/-- Soundness of lookup in the rebuilt dictionary: every looked-up value
comes from a row with that key. -/
theorem dlookup_rebuildAllocs
    (rows : List ((String × String × String × String) × ℚ))
    (q : String × String × String × String) (w : ℚ)
    (h : dlookup (rebuildAllocs rows) (PyKey.tup q) = some w) :
    ∃ rw ∈ rows, rw.1 = q ∧ rw.2 = w := by
  have hgen : ∀ (rows : List ((String × String × String × String) × ℚ))
      (init : List (PyKey × ℚ)),
      dlookup (rows.foldl
          (fun acc rw => pyInsert acc (PyKey.tup rw.1) rw.2) init)
        (PyKey.tup q) = some w →
      (∃ rw ∈ rows, rw.1 = q ∧ rw.2 = w) ∨
        dlookup init (PyKey.tup q) = some w := by
    intro rows
    induction rows with
    | nil => intro init h; exact Or.inr h
    | cons rw rows ih =>
      intro init h
      rcases ih _ h with hl | hr
      · obtain ⟨rw', hrw', hq, hwv⟩ := hl
        exact Or.inl ⟨rw', List.mem_cons_of_mem rw hrw', hq, hwv⟩
      · rw [dlookup_pyInsert] at hr
        by_cases hqq : PyKey.tup q = PyKey.tup rw.1
        · rw [if_pos hqq] at hr
          injection hqq with hq'
          injection hr with hw'
          exact Or.inl ⟨rw, List.mem_cons_self rw rows, hq'.symm, hw'⟩
        · rw [if_neg hqq] at hr
          exact Or.inr hr
  rcases hgen rows [] h with hl | hr
  · exact hl
  · rw [dlookup_nil] at hr
    cases hr

/-- Each row after the reconciliation loop keeps its key; its value is the
value of some matching bid row, or its own previous value when no bid row
matches its (Employee, Duty, Shift) triple. -/
theorem applyBidRows_mem (bidRows : List ((String × String × String) × ℚ)) :
    ∀ (rows : List ((String × String × String × String) × ℚ)) rw',
      rw' ∈ applyBidRows bidRows rows →
      ∃ rw ∈ rows, rw'.1 = rw.1 ∧
        ((∃ br ∈ bidRows, br.1 = rowTriple rw.1 ∧ rw'.2 = br.2) ∨
         ((∀ br ∈ bidRows, br.1 ≠ rowTriple rw.1) ∧ rw'.2 = rw.2)) := by
  induction bidRows with
  | nil =>
    intro rows rw' h
    exact ⟨rw', h, rfl, Or.inr ⟨by simp, rfl⟩⟩
  | cons br brs ih =>
    intro rows rw' h
    have h' : rw' ∈ applyBidRows brs (rows.map (fun rw =>
        if rowTriple rw.1 = br.1 then (rw.1, br.2) else rw)) := h
    obtain ⟨rw₀, hrw₀, h1, h2⟩ := ih _ rw' h'
    obtain ⟨rw, hrw, heq⟩ := List.mem_map.mp hrw₀
    by_cases hm : rowTriple rw.1 = br.1
    · have hrw₀eq : rw₀ = (rw.1, br.2) := by rw [← heq, if_pos hm]
      refine ⟨rw, hrw, by rw [h1, hrw₀eq], ?_⟩
      rcases h2 with ⟨br', hbr', hbrt, hv⟩ | ⟨-, hv⟩
      · refine Or.inl ⟨br', List.mem_cons_of_mem br hbr', ?_, hv⟩
        rw [hbrt, hrw₀eq]
      · refine Or.inl ⟨br, List.mem_cons_self br brs, hm.symm, ?_⟩
        rw [hv, hrw₀eq]
    · have hrw₀eq : rw₀ = rw := by rw [← heq, if_neg hm]
      refine ⟨rw, hrw, by rw [h1, hrw₀eq], ?_⟩
      rcases h2 with ⟨br', hbr', hbrt, hv⟩ | ⟨hno, hv⟩
      · refine Or.inl ⟨br', List.mem_cons_of_mem br hbr', ?_, hv⟩
        rw [hbrt, hrw₀eq]
      · refine Or.inr ⟨?_, by rw [hv, hrw₀eq]⟩
        intro br' hbr'
        rcases List.mem_cons.mp hbr' with rfl | hbr''
        · exact fun hh => hm hh.symm
        · have := hno br' hbr''
          rw [hrw₀eq] at this
          exact this

/-! ### Claim C8: cleanAllocations is not idempotent -/

/-- Counterexample to C8: on the solved one-slot instance a first
cleanAllocations run succeeds, but running it again on the normalized
result does not return the same mapping: it raises, because the keys are
now tuples and line 78 calls the string split method on them. -/
theorem cleanAllocations_not_idempotent :
    cleanAllocations allocState = .ok allocResult ∧
    cleanAllocations allocResult =
      .error "AttributeError: tuple has no attribute split" :=
  ⟨rfl, rfl⟩

/-- C8 amended: a single cleanAllocations run is the only supported use.
Re-running it on any non-empty normalized allocations mapping raises an
AttributeError at line 78 instead of being a no-op, since the rebuilt
dictionary is keyed by tuples, which have no split method.  Only the empty
mapping is rerun unchanged. -/
theorem cleanAllocations_second_run_raises (s s' : SchedState)
    (hok : cleanAllocations s = .ok s') (hne : s'.allocations ≠ []) :
    ∃ msg, cleanAllocations s' = .error msg := by
  have hkeys := cleanAllocations_keys_tup s s' hok
  obtain ⟨kv, rest, hcons⟩ := List.exists_cons_of_ne_nil hne
  obtain ⟨q, hq⟩ := hkeys kv (hcons ▸ List.mem_cons_self kv rest)
  refine ⟨"AttributeError: tuple has no attribute split", ?_⟩
  have hparse : parseAllocKey kv =
      .error "AttributeError: tuple has no attribute split" := by
    obtain ⟨pk, pv⟩ := kv
    cases pk with
    | str k => simp at hq
    | tup t => rfl
  unfold cleanAllocations
  rw [hcons]
  unfold parseAllocRows
  rw [hparse]

/-- Witness for the amended C8 at a concrete input. -/
theorem cleanAllocations_second_run_raises_witness :
    (cleanAllocations allocState = .ok allocResult ∧
      allocResult.allocations ≠ []) ∧
    (∃ msg, cleanAllocations allocResult = .error msg) :=
  ⟨⟨rfl, by decide⟩,
    cleanAllocations_second_run_raises allocState allocResult rfl
      (by decide)⟩

/-- C3: after cleanAllocations, every allocation row whose cleansed
(Employee, Duty, Shift) matches a positive-weight original bid carries
exactly that bid weight, and every row with no matching positive bid
carries weight 0.  The uniqueness hypothesis mirrors the validated store:
only one weight exists per cleansed (employee, duty, shift). -/
theorem cleanAllocations_weights (s s' : SchedState)
    (hok : cleanAllocations s = .ok s')
    (huniq : ∀ kv₁ ∈ s.bids, ∀ kv₂ ∈ s.bids, kv₁.2 > 0 → kv₂.2 > 0 →
      cleanBidKey kv₁.1 = cleanBidKey kv₂.1 → kv₁.2 = kv₂.2) :
    ∀ (q : String × String × String × String) (w : ℚ),
      dlookup s'.allocations (PyKey.tup q) = some w →
        (∀ kv ∈ s.bids, kv.2 > 0 → cleanBidKey kv.1 = rowTriple q →
          w = kv.2) ∧
        ((∀ kv ∈ s.bids, kv.2 > 0 → cleanBidKey kv.1 ≠ rowTriple q) →
          w = 0) := by
  obtain ⟨parsed, rows, hp, ht, rfl⟩ := (cleanAllocations_ok_iff s s').mp hok
  intro q w hw
  obtain ⟨rwU, hrwU, hq, hwU⟩ := dlookup_rebuildAllocs _ q w hw
  obtain ⟨rz, hrz, h1, h2⟩ := applyBidRows_mem (cleanBidRows s) _ rwU hrwU
  obtain ⟨rr, hrr, hrzeq⟩ := List.mem_map.mp hrz
  have hrz2 : rz.2 = 0 := by rw [← hrzeq]
  have hq1 : rz.1 = q := by rw [← h1, hq]
  constructor
  · intro kv hkv hpos hmatch
    have hbr : (cleanBidKey kv.1, kv.2) ∈ cleanBidRows s :=
      List.mem_map.mpr ⟨kv,
        List.mem_filter.mpr ⟨hkv, by simpa using hpos⟩, rfl⟩
    rcases h2 with ⟨br', hbr', hbrt, hv⟩ | ⟨hno, -⟩
    · obtain ⟨kv', hkv'f, hbr'eq⟩ := List.mem_map.mp hbr'
      have hkv'mem : kv' ∈ s.bids := (List.mem_filter.mp hkv'f).1
      have hkv'pos : kv'.2 > 0 := by
        have := (List.mem_filter.mp hkv'f).2
        simpa using this
      have hck : cleanBidKey kv'.1 = rowTriple q := by
        have hb1 : br'.1 = cleanBidKey kv'.1 := by rw [← hbr'eq]
        rw [← hb1, hbrt, hq1]
      have hvv : kv.2 = kv'.2 :=
        huniq kv hkv kv' hkv'mem hpos hkv'pos (hmatch.trans hck.symm)
      have hb2 : br'.2 = kv'.2 := by rw [← hbr'eq]
      rw [← hwU, hv, hb2, hvv]
    · exfalso
      have := hno (cleanBidKey kv.1, kv.2) hbr
      rw [hq1] at this
      exact this hmatch
  · intro hnomatch
    rcases h2 with ⟨br', hbr', hbrt, -⟩ | ⟨-, hv⟩
    · exfalso
      obtain ⟨kv', hkv'f, hbr'eq⟩ := List.mem_map.mp hbr'
      have hkv'mem : kv' ∈ s.bids := (List.mem_filter.mp hkv'f).1
      have hkv'pos : kv'.2 > 0 := by
        have := (List.mem_filter.mp hkv'f).2
        simpa using this
      have hck : cleanBidKey kv'.1 = rowTriple q := by
        have hb1 : br'.1 = cleanBidKey kv'.1 := by rw [← hbr'eq]
        rw [← hb1, hbrt, hq1]
      exact hnomatch kv' hkv'mem hkv'pos hck
    · rw [← hwU, hv, hrz2]

/-- Witness for C3 at a concrete input: the solved one-slot instance,
whose only row matches the single positive bid of weight 5. -/
theorem cleanAllocations_weights_witness :
    (cleanAllocations allocState = .ok allocResult ∧
      (∀ kv₁ ∈ allocState.bids, ∀ kv₂ ∈ allocState.bids,
        kv₁.2 > 0 → kv₂.2 > 0 →
        cleanBidKey kv₁.1 = cleanBidKey kv₂.1 → kv₁.2 = kv₂.2)) ∧
    (∀ (q : String × String × String × String) (w : ℚ),
      dlookup allocResult.allocations (PyKey.tup q) = some w →
        (∀ kv ∈ allocState.bids, kv.2 > 0 →
          cleanBidKey kv.1 = rowTriple q → w = kv.2) ∧
        ((∀ kv ∈ allocState.bids, kv.2 > 0 →
          cleanBidKey kv.1 ≠ rowTriple q) → w = 0)) :=
  ⟨⟨rfl, by decide⟩,
    cleanAllocations_weights allocState allocResult rfl (by decide)⟩

end DutySchedule
